import Mathlib

/-!
Verification of the nf_tables interface header (net/netfilter/nf_tables.h):
a shallow embedding of its data model and inline operations, with theorems
checking the specification's statements against them.

The value content of a struct nft_data is 16 bytes; machine words are
modelled as Nat with explicit bounds (each byte below 256, 16-bit fields
reduced modulo 2^16).
-/

/-- Byte view of struct nft_data: the 16 bytes underlying the u32 data[4]
array (the generic-value arm of the union). Each byte is a Fin 256. -/
structure NftData where
  data : Fin 16 → Fin 256

/-- Byte read at offset i of an nft_data value, as a Nat (0 when out of the
16-byte range; the code never reads outside it). -/
def byteAt (d : NftData) (i : Nat) : Nat :=
  if h : i < 16 then (d.data ⟨i, h⟩).val else 0

/-- Little-endian value of a list of bytes, least significant first:
the contents of a u64 read from 8 consecutive bytes. -/
def loadBytes : List Nat → Nat
  | [] => 0
  | a :: l => a + 256 * loadBytes l

/-- The 8 bytes of d starting at offset off, in memory order. -/
def bytesFrom (d : NftData) (off : Nat) : List Nat :=
  (List.range 8).map (fun j => byteAt d (off + j))

/-- Model of the u64 load *(u64 *)&d->data[off/4]: the 8 bytes starting at
byte offset off, assembled little-endian. -/
def loadU64 (d : NftData) (off : Nat) : Nat :=
  loadBytes (bytesFrom d off)

/-- Model of the u64 store *(u64 *)&d->data[off/4] = v: bytes off..off+7
receive the base-256 digits of v, the other bytes keep their value. -/
def storeU64 (d : NftData) (off : Nat) (v : Nat) : NftData :=
  ⟨fun i =>
    if off ≤ i.val ∧ i.val < off + 8 then
      ⟨v / 256 ^ (i.val - off) % 256, Nat.mod_lt _ (by norm_num)⟩
    else d.data i⟩

/-- Embedding of nft_data_copy: two 8-byte chunk assignments, bytes 0..7
then bytes 8..15, from src into dst. -/
def nft_data_copy (dst src : NftData) : NftData :=
  storeU64 (storeU64 dst 0 (loadU64 src 0)) 8 (loadU64 src 8)

/-- Result of memcmp on two byte lists of equal length: the sign of the
first differing pair of bytes, 0 when none differs. -/
def memcmpGo : List Nat → List Nat → Int
  | a :: l1, b :: l2 =>
    if a < b then -1 else if b < a then 1 else memcmpGo l1 l2
  | _, _ => 0

/-- All 16 bytes of an nft_data value, in memory order. -/
def toBytes (d : NftData) : List Nat :=
  (List.range 16).map (byteAt d)

/-- Embedding of nft_data_cmp: memcmp over the first len bytes of the two
values (the code is only called with len at most 16). -/
def nft_data_cmp (d1 d2 : NftData) (len : Nat) : Int :=
  memcmpGo ((toBytes d1).take len) ((toBytes d2).take len)

/-- Plain byte-for-byte copy of the full 16-byte value, following the
specification's words: dst ends up with exactly src's bytes. -/
def memcpy16 (dst src : NftData) : NftData :=
  ⟨fun i => src.data i⟩

/-- Sample value: byte i holds i. -/
def sampleData : NftData :=
  ⟨fun i => ⟨i.val, by omega⟩⟩

/-- Sample value: all bytes zero. -/
def zeroData : NftData :=
  ⟨fun _ => 0⟩

/-! C object layout model: sizes and alignments computed by the standard C
layout rules, with the pointer size left as a parameter (8 on 64-bit
targets, 4 on 32-bit ones). -/

/-- Size and alignment of a C object type. -/
structure CLayout where
  size : Nat
  align : Nat

/-- Round n up to the next multiple of a. -/
def alignUp (n a : Nat) : Nat :=
  (n + a - 1) / a * a

/-- Layout of u32. -/
def u32Layout : CLayout := ⟨4, 4⟩

/-- Alignment of u64, the alignment the aligned attribute on struct
nft_data requests. -/
def u64Align : Nat := 8

/-- Layout of a data pointer, given the target pointer size. -/
def ptrLayout (p : Nat) : CLayout := ⟨p, p⟩

/-- Layout of an array of n elements. -/
def arrayLayout (e : CLayout) (n : Nat) : CLayout := ⟨e.size * n, e.align⟩

/-- Offset-and-alignment accumulator for a struct's fields: each field is
placed at its alignment, the struct's alignment is the fields' maximum. -/
def structFields (fields : List CLayout) : Nat × Nat :=
  fields.foldl (fun acc f => (alignUp acc.1 f.align + f.size, max acc.2 f.align)) (0, 1)

/-- Layout of a struct: fields in order, tail padding to the alignment. -/
def structLayout (fields : List CLayout) : CLayout :=
  ⟨alignUp (structFields fields).1 (structFields fields).2, (structFields fields).2⟩

/-- Layout of a union: the members' maximum size padded to the members'
maximum alignment. -/
def unionLayout (members : List CLayout) : CLayout :=
  ⟨alignUp (members.foldl (fun acc m => max acc m.size) 0)
      (members.foldl (fun acc m => max acc m.align) 1),
    members.foldl (fun acc m => max acc m.align) 1⟩

/-- Effect of an aligned(a) attribute: raise the alignment to a and pad
the size accordingly. -/
def attrAligned (l : CLayout) (a : Nat) : CLayout :=
  ⟨alignUp l.size (max l.align a), max l.align a⟩

/-- The anonymous union inside struct nft_data: u32 data[4] overlaid with
the anonymous verdict struct { u32 verdict; struct nft_chain *chain; }. -/
def nftDataUnion (p : Nat) : CLayout :=
  unionLayout [arrayLayout u32Layout 4, structLayout [u32Layout, ptrLayout p]]

/-- Layout of struct nft_data: the union above under
attribute((aligned(alignof(u64)))). -/
def nft_data_layout (p : Nat) : CLayout :=
  attrAligned (nftDataUnion p) u64Align

/-! Registers and data types. -/

/-- Modelled from the spec: enum nft_registers of the uapi header (not under
src); the reserved verdict register NFT_REG_VERDICT plus the four value
registers NFT_REG_1..NFT_REG_4 (NFT_REG_MAX is NFT_REG_4). Distinct
enumerators are distinct values; nft_dreg_to_type and nft_type_to_reg only
test a register for equality with NFT_REG_VERDICT. -/
inductive NftRegister where
  | NFT_REG_VERDICT
  | NFT_REG_1
  | NFT_REG_2
  | NFT_REG_3
  | NFT_REG_4
deriving DecidableEq

/-- Embedding of enum nft_data_types: a generic value or a verdict. -/
inductive NftDataType where
  | NFT_DATA_VALUE
  | NFT_DATA_VERDICT
deriving DecidableEq

/-- Embedding of nft_dreg_to_type: the verdict register carries verdicts,
every other register carries generic values. -/
def nft_dreg_to_type (reg : NftRegister) : NftDataType :=
  if reg = NftRegister.NFT_REG_VERDICT then NftDataType.NFT_DATA_VERDICT
  else NftDataType.NFT_DATA_VALUE

/-- Embedding of nft_type_to_reg: the verdict type maps to the verdict
register, the value type to NFT_REG_1. -/
def nft_type_to_reg (t : NftDataType) : NftRegister :=
  if t = NftDataType.NFT_DATA_VERDICT then NftRegister.NFT_REG_VERDICT
  else NftRegister.NFT_REG_1

/-! Chain counters. -/

/-- Modulus of the u16 fields of struct nft_chain. -/
def U16_MOD : Nat := 2 ^ 16

/-- Embedding of struct nft_chain's scalar fields: the 48-bit-capable u64
handle, u8 flags, and the two u16 counters: use (number of jump references
to the chain) and level (length of the longest path to the chain). The
list heads and the name array do not affect the claims. -/
structure NftChain where
  handle : Nat
  flags : Fin 256
  use : Fin U16_MOD
  level : Fin U16_MOD

/-- Increment of the u16 use counter, as C performs it: the sum is reduced
modulo 2^16 when stored back into the 16-bit field. -/
def nft_chain_use_inc (c : NftChain) : NftChain :=
  { c with use := ⟨(c.use.val + 1) % U16_MOD, Nat.mod_lt _ (by norm_num [U16_MOD])⟩ }

/-- Chain with the use counter at its maximum value 65535. -/
def maxUseChain : NftChain :=
  ⟨0, 0, ⟨65535, by norm_num [U16_MOD]⟩, ⟨0, by norm_num [U16_MOD]⟩⟩

/-! Rule expression iteration. -/

/-- Expression operations descriptor (struct nft_expr_ops): of its fields
only size, the full expression size including private data, is read by the
iteration macro; the function pointers and registration fields do not
affect the claims. -/
structure NftExprOps where
  size : Nat
deriving DecidableEq

/-- Embedding of struct nft_expr: a reference to its operations. The
private data tail is opaque to the iteration. -/
structure NftExpr where
  ops : NftExprOps
deriving DecidableEq

/-- Total byte length of a rule's expression data: the dlen field of a
well-formed struct nft_rule whose data holds exactly these expressions
contiguously. -/
def sumSizes (es : List NftExpr) : Nat :=
  es.foldr (fun e acc => e.ops.size + acc) 0

/-- Expression stored at a given byte offset of the rule's data array, when
the offset is the start of one: offset 0 is the first expression, and each
expression occupies ops.size bytes before the next. -/
def exprAt : List NftExpr → Nat → Option NftExpr
  | [], _ => none
  | e :: es, o =>
    if o = 0 then some e
    else if e.ops.size ≤ o then exprAt es (o - e.ops.size)
    else none

/-- Fuel-bounded run of nft_rule_for_each_expr: starting from a byte
offset, stop when the offset equals dlen (the address of nft_expr_last),
otherwise read the expression at the offset and advance by its ops.size
(nft_expr_next). Returns the visited expressions in order, or none when
the fuel runs out or an offset is not the start of an expression. -/
def runIter (es : List NftExpr) (dlen : Nat) : Nat → Nat → Option (List NftExpr)
  | 0, off => if off = dlen then some [] else none
  | fuel + 1, off =>
    if off = dlen then some []
    else
      match exprAt es off with
      | none => none
      | some e => Option.map (fun l => e :: l) (runIter es dlen fuel (off + e.ops.size))

/-- Step of the iteration at the byte-offset level (nft_expr_next with the
memory abstracted to the size read at each offset). -/
def offStep (sizeAt : Nat → Nat) (o : Nat) : Nat :=
  o + sizeAt o

/-- Offsets the loop visits: offset 0, then each offset advanced by the
size read there. -/
def offSeq (sizeAt : Nat → Nat) : Nat → Nat
  | 0 => 0
  | k + 1 => offStep sizeAt (offSeq sizeAt k)

/-- Offsets visited starting from an arbitrary offset. -/
def offSeqFrom (sizeAt : Nat → Nat) (o : Nat) : Nat → Nat
  | 0 => o
  | k + 1 => offSeqFrom sizeAt (offStep sizeAt o) k

/-- Fuel-bounded run of the loop at the offset level: true when the loop's
stopping condition, pointer equality with the end marker at offset dlen,
is reached within the fuel. -/
def runLoop (sizeAt : Nat → Nat) (dlen : Nat) : Nat → Nat → Bool
  | 0, o => o = dlen
  | fuel + 1, o => if o = dlen then true else runLoop sizeAt dlen fuel (offStep sizeAt o)

/-- Termination of nft_rule_for_each_expr: some finite fuel makes the loop
reach its end marker from offset 0. -/
def loopTerminates (sizeAt : Nat → Nat) (dlen : Nat) : Prop :=
  ∃ fuel, runLoop sizeAt dlen fuel 0 = true

/-- Concrete two-expression rule data, sizes 48 and 64 bytes. -/
def sampleExprs : List NftExpr :=
  [⟨⟨48⟩⟩, ⟨⟨64⟩⟩]

/-! Jump graph validation. -/

/-- Embedding of the NFT_JUMP_STACK_SIZE constant: the jump stack holds 16
entries. -/
def NFT_JUMP_STACK_SIZE : Nat := 16

/-- Length of the longest jump path ending at chain c over the edge list
(a, b) meaning some rule of chain a jumps to chain b, computed with
explicit fuel; fuel beyond the number of edges is enough on the acyclic
configurations the validation admits. -/
def levelFuel : Nat → List (Nat × Nat) → Nat → Nat
  | 0, _, _ => 0
  | n + 1, es, c =>
    es.foldr (fun e acc => if e.2 = c then max acc (levelFuel n es e.1 + 1) else acc) 0

/-- Level of chain c: the chain's stored level field, the length of the
longest jump path reaching it. -/
def chainLevel (es : List (Nat × Nat)) (c : Nat) : Nat :=
  levelFuel (es.length + 1) es c

/-- Fuel-bounded reachability along jump edges: a path of at most n edges
from a to b. -/
def reaches (es : List (Nat × Nat)) : Nat → Nat → Nat → Bool
  | 0, a, b => a = b
  | n + 1, a, b => a = b || es.any (fun e => e.1 = a && reaches es n e.2 b)

/-- Whether adding a jump from a to b closes a cycle: the target b already
reaches a (including b = a). -/
def createsCycle (es : List (Nat × Nat)) (a b : Nat) : Bool :=
  reaches es (es.length + 1) b a

/-- Chains that are the target of some jump edge; every other chain has
level 0. -/
def jumpTargets (es : List (Nat × Nat)) : List Nat :=
  es.map Prod.snd

/-- Modelled from the spec: the rule-insertion validation of jump targets
(section 4.5; the implementing nf_tables_api.c is not under src, the
header only carries NFT_JUMP_STACK_SIZE and the chain's level field).
Adding a rule of chain a that jumps to chain b is rejected when it would
close a cycle or push any chain's level past the jump-stack capacity;
on success the new edge is recorded and every level stays within
capacity. -/
def nft_chain_validate_jump (es : List (Nat × Nat)) (a b : Nat) :
    Option (List (Nat × Nat)) :=
  if createsCycle es a b then none
  else if (jumpTargets ((a, b) :: es)).all
      (fun c => decide (chainLevel ((a, b) :: es) c ≤ NFT_JUMP_STACK_SIZE)) then
    some ((a, b) :: es)
  else none

/-- Configurations reachable from the empty ruleset by accepted jump-rule
insertions. -/
inductive ReachableCfg : List (Nat × Nat) → Prop where
  | nil : ReachableCfg []
  | step (es : List (Nat × Nat)) (a b : Nat) (es2 : List (Nat × Nat)) :
      ReachableCfg es → nft_chain_validate_jump es a b = some es2 → ReachableCfg es2

/-! Set contract. -/

/-- Error result of a set insertion. -/
inductive SetErr where
  | Exists
deriving DecidableEq

/-- Modelled from the spec: a backend-agnostic keyed collection satisfying
the nft_set_ops contract (the concrete backends are out of the header's
scope); keys and data are the opaque values the engine never interprets,
modelled as Nat. Lookup finds the entry with the given key. -/
def set_lookup (s : List (Nat × Nat)) (k : Nat) : Option Nat :=
  Option.map Prod.snd (s.find? (fun e => decide (e.1 = k)))

/-- Modelled from the spec: insertion returns Exists for a duplicate key
without mutating state, and otherwise records the new element. -/
def set_insert (s : List (Nat × Nat)) (k d : Nat) :
    Except SetErr (List (Nat × Nat)) :=
  if s.any (fun e => decide (e.1 = k)) then Except.error SetErr.Exists
  else Except.ok ((k, d) :: s)

/-- Modelled from the spec: removal of the element with the given key. -/
def set_remove (s : List (Nat × Nat)) (k : Nat) : List (Nat × Nat) :=
  s.filter (fun e => decide (e.1 ≠ k))

/-! Theorems. -/

theorem nftData_eq (a b : NftData) (h : a.data = b.data) : a = b := by
  cases a; cases b; cases h; rfl

theorem byteAt_lt (d : NftData) (i : Nat) : byteAt d i < 256 := by
  unfold byteAt
  split
  · exact (d.data _).isLt
  · norm_num

theorem loadBytes_digit :
    ∀ (l : List Nat), (∀ x ∈ l, x < 256) → ∀ k, k < l.length →
      loadBytes l / 256 ^ k % 256 = l.getD k 0 := by
  intro l
  induction l with
  | nil => intro _ k hk; simp at hk
  | cons a l ih =>
    intro hlt k hk
    have ha : a < 256 := hlt a (by simp)
    cases k with
    | zero =>
      simp only [loadBytes, pow_zero, Nat.div_one, List.getD]
      rw [Nat.add_mul_mod_self_left, Nat.mod_eq_of_lt ha]
      rfl
    | succ k =>
      have h1 : (a + 256 * loadBytes l) / 256 = loadBytes l := by
        rw [Nat.add_mul_div_left _ _ (by norm_num : (0:Nat) < 256)]
        simp [Nat.div_eq_of_lt ha]
      have h2 : (256:Nat) ^ (k + 1) = 256 * 256 ^ k := by ring
      rw [loadBytes, h2, ← Nat.div_div_eq_div_mul, h1]
      have := ih (fun x hx => hlt x (by simp [hx])) k (by simpa using hk)
      simpa using this

theorem bytesFrom_lt (d : NftData) (off : Nat) :
    ∀ x ∈ bytesFrom d off, x < 256 := by
  intro x hx
  simp only [bytesFrom, List.mem_map] at hx
  obtain ⟨j, _, rfl⟩ := hx
  exact byteAt_lt d _

theorem bytesFrom_getD (d : NftData) (off k : Nat) (hk : k < 8) :
    (bytesFrom d off).getD k 0 = byteAt d (off + k) := by
  simp [bytesFrom, List.getD, List.getElem?_map, List.getElem?_range, hk]

theorem loadU64_digit (d : NftData) (off k : Nat) (hk : k < 8) :
    loadU64 d off / 256 ^ k % 256 = byteAt d (off + k) := by
  rw [loadU64, loadBytes_digit _ (bytesFrom_lt d off) k (by simp [bytesFrom, hk]),
    bytesFrom_getD d off k hk]

theorem storeU64_in (d : NftData) (off v : Nat) (i : Fin 16)
    (h1 : off ≤ i.val) (h2 : i.val < off + 8) :
    ((storeU64 d off v).data i).val = v / 256 ^ (i.val - off) % 256 := by
  simp only [storeU64]
  rw [if_pos ⟨h1, h2⟩]

theorem storeU64_out (d : NftData) (off v : Nat) (i : Fin 16)
    (h : ¬(off ≤ i.val ∧ i.val < off + 8)) :
    (storeU64 d off v).data i = d.data i := by
  simp only [storeU64]
  rw [if_neg h]

theorem byteAt_val (d : NftData) (i : Fin 16) : byteAt d i.val = (d.data i).val := by
  unfold byteAt
  rw [dif_pos i.isLt]

theorem copy_byte (dst src : NftData) (i : Fin 16) :
    (nft_data_copy dst src).data i = src.data i := by
  apply Fin.ext
  by_cases h8 : i.val < 8
  · have hout : ¬(8 ≤ i.val ∧ i.val < 8 + 8) := by omega
    rw [nft_data_copy, storeU64_out _ _ _ _ hout,
      storeU64_in _ _ _ _ (Nat.zero_le _) (by omega)]
    have := loadU64_digit src 0 i.val h8
    rw [Nat.sub_zero, this, Nat.zero_add, byteAt_val]
  · have hin1 : 8 ≤ i.val := by omega
    rw [nft_data_copy, storeU64_in _ _ _ _ hin1 (by omega)]
    have := loadU64_digit src 8 (i.val - 8) (by omega)
    have heq : 8 + (i.val - 8) = i.val := by omega
    rw [heq] at this
    rw [this, byteAt_val]

theorem memcmpGo_self : ∀ l : List Nat, memcmpGo l l = 0 := by
  intro l
  induction l with
  | nil => rfl
  | cons a l ih => simp [memcmpGo, ih]

/-- Claim C3: nft_data_copy, implemented as two 8-byte chunk assignments,
is extensionally a plain byte-for-byte copy of the whole 16-byte value:
every byte of the result equals the corresponding byte of src. -/
theorem c3_copy_refines_bytecopy :
    ∀ dst src : NftData, nft_data_copy dst src = memcpy16 dst src :=
  fun dst src => nftData_eq _ _ (funext fun i => copy_byte dst src i)

/-- Claim C1: copying a value with nft_data_copy and comparing original
and copy with nft_data_cmp over any length len at most 16 reports them
equal (memcmp result 0). -/
theorem c1_copy_then_cmp_eq (v dst : NftData) (len : Nat) (hlen : len ≤ 16) :
    nft_data_cmp v (nft_data_copy dst v) len = 0 := by
  have h : nft_data_copy dst v = v :=
    nftData_eq _ _ (funext fun i => copy_byte dst v i)
  rw [h, nft_data_cmp, memcmpGo_self]

theorem c1_witness :
    nft_data_cmp sampleData (nft_data_copy zeroData sampleData) 16 = 0 :=
  c1_copy_then_cmp_eq sampleData zeroData 16 (by decide)

/-- Claim C2: struct nft_data occupies exactly 16 bytes and is aligned to
8 bytes, on both 8-byte-pointer and 4-byte-pointer targets; the layout is
that of a union of u32 data[4] and the verdict struct (u32 code plus a
pointer to the target chain), under the aligned(alignof(u64)) attribute. -/
theorem c2_nft_data_layout :
    (nft_data_layout 8).size = 16 ∧ (nft_data_layout 8).align = 8 ∧
    (nft_data_layout 4).size = 16 ∧ (nft_data_layout 4).align = 8 := by
  decide

/-- Claim C4: nft_dreg_to_type maps a register to NFT_DATA_VERDICT exactly
when the register is the reserved verdict register NFT_REG_VERDICT; every
other register is mapped to NFT_DATA_VALUE. -/
theorem c4_dreg_to_type_verdict_iff :
    ∀ reg : NftRegister,
      (nft_dreg_to_type reg = NftDataType.NFT_DATA_VERDICT ↔
        reg = NftRegister.NFT_REG_VERDICT) ∧
      (nft_dreg_to_type reg = NftDataType.NFT_DATA_VALUE ↔
        reg ≠ NftRegister.NFT_REG_VERDICT) := by
  intro reg
  cases reg <;> exact ⟨by decide, by decide⟩

/-- Claim C9: nft_type_to_reg is a right inverse of nft_dreg_to_type (round
tripping a data type through a register returns the type), but not a left
inverse: NFT_REG_2 round trips to NFT_REG_1, since every value-typed
register maps back to NFT_REG_1. -/
theorem c9_type_reg_inverse :
    (∀ t : NftDataType, nft_dreg_to_type (nft_type_to_reg t) = t) ∧
    nft_type_to_reg (nft_dreg_to_type NftRegister.NFT_REG_2) ≠
      NftRegister.NFT_REG_2 := by
  constructor
  · intro t; cases t <;> decide
  · decide

/-- Claim C10: the use and level fields of struct nft_chain are 16-bit
unsigned counters: each is bounded by 65535, incrementing use stores the
sum reduced modulo 2^16, and incrementing use at 65535 wraps to 0. -/
theorem c10_u16_fields :
    (∀ c : NftChain, c.use.val ≤ 65535 ∧ c.level.val ≤ 65535) ∧
    (∀ c : NftChain, (nft_chain_use_inc c).use.val = (c.use.val + 1) % 2 ^ 16) ∧
    (nft_chain_use_inc maxUseChain).use.val = 0 := by
  refine ⟨fun c => ⟨?_, ?_⟩, fun c => rfl, by decide⟩
  · have := c.use.isLt
    simp only [U16_MOD] at this
    omega
  · have := c.level.isLt
    simp only [U16_MOD] at this
    omega

theorem sumSizes_cons (e : NftExpr) (es : List NftExpr) :
    sumSizes (e :: es) = e.ops.size + sumSizes es := rfl

theorem runIter_shift (e : NftExpr) (es : List NftExpr) (hpos : 0 < e.ops.size) :
    ∀ fuel dlen off, runIter (e :: es) (e.ops.size + dlen) fuel (e.ops.size + off)
      = runIter es dlen fuel off := by
  intro fuel
  induction fuel with
  | zero =>
    intro dlen off
    simp only [runIter]
    by_cases h : off = dlen
    · simp [h]
    · rw [if_neg (by omega), if_neg h]
  | succ f ih =>
    intro dlen off
    simp only [runIter]
    by_cases h : off = dlen
    · simp [h]
    · rw [if_neg (by omega), if_neg h]
      have hea : exprAt (e :: es) (e.ops.size + off) = exprAt es off := by
        simp only [exprAt]
        rw [if_neg (by omega), if_pos (by omega)]
        congr 1
        omega
      rw [hea]
      cases hx : exprAt es off with
      | none => rfl
      | some a =>
        have harg : e.ops.size + off + a.ops.size = e.ops.size + (off + a.ops.size) := by
          omega
      
        simp only [harg, ih]

/-- Claim C6: a rule's expressions form an ordered contiguous sequence of
total byte length dlen, and nft_rule_for_each_expr visits exactly those
expressions in stored order: from offset 0, each step advances by the
current expression's declared ops.size, and the loop stops at offset dlen.
Expression sizes are positive (NFT_EXPR_SIZE always covers the nft_expr
header). -/
theorem c6_rule_iter_visits_exprs :
    ∀ es : List NftExpr, (∀ e ∈ es, 0 < e.ops.size) →
      runIter es (sumSizes es) es.length 0 = some es := by
  intro es
  induction es with
  | nil => intro _; rfl
  | cons e es ih =>
    intro hpos
    have hpe : 0 < e.ops.size := hpos e (by simp)
    show runIter (e :: es) (sumSizes (e :: es)) (es.length + 1) 0 = some (e :: es)
    rw [sumSizes_cons]
    simp only [runIter]
    rw [if_neg (by omega)]
    have h0 : exprAt (e :: es) 0 = some e := by simp [exprAt]
    rw [h0]
    have harg : (0 : Nat) + e.ops.size = e.ops.size + 0 := by omega
    simp only [harg, runIter_shift e es hpe es.length (sumSizes es) 0,
      ih (fun x hx => hpos x (by simp [hx]))]
    rfl

theorem c6_witness :
    runIter sampleExprs (sumSizes sampleExprs) sampleExprs.length 0 = some sampleExprs :=
  c6_rule_iter_visits_exprs sampleExprs (by decide)

theorem offSeqFrom_succ (sizeAt : Nat → Nat) :
    ∀ k o, offSeqFrom sizeAt o (k + 1) = offStep sizeAt (offSeqFrom sizeAt o k) := by
  intro k
  induction k with
  | zero => intro o; rfl
  | succ k ih =>
    intro o
    show offSeqFrom sizeAt (offStep sizeAt o) (k + 1) = _
    rw [ih]
    rfl

theorem offSeqFrom_zero_eq (sizeAt : Nat → Nat) :
    ∀ k, offSeqFrom sizeAt 0 k = offSeq sizeAt k := by
  intro k
  induction k with
  | zero => rfl
  | succ k ih => rw [offSeqFrom_succ, ih]; rfl

theorem runLoop_of_hit (sizeAt : Nat → Nat) (dlen : Nat) :
    ∀ k o, offSeqFrom sizeAt o k = dlen → runLoop sizeAt dlen k o = true := by
  intro k
  induction k with
  | zero =>
    intro o h
    simp only [offSeqFrom] at h
    simp [runLoop, h]
  | succ k ih =>
    intro o h
    simp only [runLoop]
    by_cases ho : o = dlen
    · simp [ho]
    · rw [if_neg ho]
      exact ih (offStep sizeAt o) h

theorem runLoop_hit (sizeAt : Nat → Nat) (dlen : Nat) :
    ∀ fuel o, runLoop sizeAt dlen fuel o = true → ∃ k, offSeqFrom sizeAt o k = dlen := by
  intro fuel
  induction fuel with
  | zero =>
    intro o h
    refine ⟨0, ?_⟩
    simpa [runLoop] using h
  | succ f ih =>
    intro o h
    by_cases ho : o = dlen
    · exact ⟨0, ho⟩
    · simp only [runLoop, if_neg ho] at h
      obtain ⟨k, hk⟩ := ih (offStep sizeAt o) h
      exact ⟨k + 1, hk⟩

theorem offSeq_stuck (sizeAt : Nat → Nat) (j : Nat)
    (h : sizeAt (offSeq sizeAt j) = 0) :
    ∀ m, offSeq sizeAt (j + m) = offSeq sizeAt j := by
  intro m
  induction m with
  | zero => rfl
  | succ m ih =>
    show offSeq sizeAt (j + m + 1) = _
    simp only [offSeq, offStep, ih, h]
    omega

/-- Claim C8: the iteration of nft_rule_for_each_expr terminates exactly
when the cumulative declared sizes, starting from offset 0, hit dlen
exactly with every step strictly positive; its stopping condition is
pointer equality with the end marker at offset dlen, so offsets that never
equal dlen make the loop run forever. -/
theorem c8_iter_termination_iff (sizeAt : Nat → Nat) (dlen : Nat) :
    loopTerminates sizeAt dlen ↔
      ∃ k, offSeq sizeAt k = dlen ∧ ∀ j < k, 0 < sizeAt (offSeq sizeAt j) := by
  constructor
  · rintro ⟨fuel, h⟩
    obtain ⟨k, hk⟩ := runLoop_hit sizeAt dlen fuel 0 h
    rw [offSeqFrom_zero_eq] at hk
    have hex : ∃ n, offSeq sizeAt n = dlen := ⟨k, hk⟩
    have hspec := Nat.find_spec hex
    refine ⟨Nat.find hex, hspec, ?_⟩
    intro j hj
    by_contra hz
    have hz0 : sizeAt (offSeq sizeAt j) = 0 := by omega
    obtain ⟨m, hm⟩ := Nat.exists_eq_add_of_le (Nat.le_of_lt hj)
    have h1 : offSeq sizeAt (Nat.find hex) = offSeq sizeAt j := by
      rw [hm]
      exact offSeq_stuck sizeAt j hz0 m
    exact Nat.find_min hex hj (h1 ▸ hspec)
  · rintro ⟨k, hk, _⟩
    exact ⟨k, runLoop_of_hit sizeAt dlen k 0 (by rw [offSeqFrom_zero_eq]; exact hk)⟩

theorem foldr_level_zero (f : Nat → Nat) (c : Nat) :
    ∀ l : List (Nat × Nat), (∀ e ∈ l, e.2 ≠ c) →
      l.foldr (fun e acc => if e.2 = c then max acc (f e.1 + 1) else acc) 0 = 0 := by
  intro l
  induction l with
  | nil => intro _; rfl
  | cons e l ih =>
    intro h
    simp only [List.foldr]
    rw [if_neg (h e (by simp)), ih (fun x hx => h x (by simp [hx]))]

theorem levelFuel_not_target (n : Nat) (es : List (Nat × Nat)) (c : Nat)
    (h : ∀ e ∈ es, e.2 ≠ c) : levelFuel n es c = 0 := by
  cases n with
  | zero => rfl
  | succ n => exact foldr_level_zero (fun x => levelFuel n es x) c es h

/-- Claim C5: in every configuration reachable by accepted rule
insertions, every chain's level (longest jump path reaching it) stays
within the fixed capacity NFT_JUMP_STACK_SIZE = 16: an insertion that
would close a jump cycle or push some chain's level past the capacity is
rejected at insertion time, so the invariant is preserved. -/
theorem c5_level_invariant (es : List (Nat × Nat)) (h : ReachableCfg es) :
    ∀ c, chainLevel es c ≤ NFT_JUMP_STACK_SIZE := by
  induction h with
  | nil =>
    intro c
    have hz : chainLevel [] c = 0 :=
      levelFuel_not_target _ _ _ (by intro e he; simp at he)
    rw [hz]
    exact Nat.zero_le _
  | step es a b es2 hr hv ih =>
    intro c
    unfold nft_chain_validate_jump at hv
    by_cases hc : createsCycle es a b
    · simp [hc] at hv
    · rw [if_neg hc] at hv
      by_cases hall : (jumpTargets ((a, b) :: es)).all
          (fun c => decide (chainLevel ((a, b) :: es) c ≤ NFT_JUMP_STACK_SIZE)) = true
      · rw [if_pos hall] at hv
        injection hv with hv2
        subst hv2
        by_cases hmem : c ∈ jumpTargets ((a, b) :: es)
        · exact of_decide_eq_true (List.all_eq_true.mp hall c hmem)
        · have hz : chainLevel ((a, b) :: es) c = 0 := by
            apply levelFuel_not_target
            intro e he hec
            exact hmem (by rw [← hec]; exact List.mem_map_of_mem Prod.snd he)
          rw [hz]
          exact Nat.zero_le _
      · simp [hall] at hv

theorem c5_witness : chainLevel [(0, 1)] 0 ≤ NFT_JUMP_STACK_SIZE :=
  c5_level_invariant [(0, 1)]
    (ReachableCfg.step [] 0 1 [(0, 1)] ReachableCfg.nil (by decide)) 0

/-- Claim C7: for a set satisfying the nft_set_ops contract, a successful
insert of (k, d) makes lookup of k return d; removing that element makes
lookup of k report absence; and inserting a duplicate of key k reports
Exists without producing any new state, so the existing entry is kept
unchanged. -/
theorem c7_set_contract (s s2 : List (Nat × Nat)) (k d : Nat)
    (h : set_insert s k d = Except.ok s2) :
    set_lookup s2 k = some d ∧
    set_lookup (set_remove s2 k) k = none ∧
    ∀ d2, set_insert s2 k d2 = Except.error SetErr.Exists := by
  unfold set_insert at h
  by_cases hmem : s.any (fun e => decide (e.1 = k)) = true
  · rw [if_pos hmem] at h
    simp at h
  · rw [if_neg hmem] at h
    injection h with h2
    subst h2
    refine ⟨?_, ?_, ?_⟩
    · simp [set_lookup, List.find?]
    · have hnone : ∀ e ∈ set_remove ((k, d) :: s) k,
          ¬ ((fun e : Nat × Nat => decide (e.1 = k)) e = true) := by
        intro e he
        rw [set_remove, List.mem_filter] at he
        simp only [decide_eq_true_eq] at he ⊢
        simpa using he.2
      simp [set_lookup, List.find?_eq_none.mpr hnone]
    · intro d2
      simp [set_insert, List.any_cons]

theorem c7_witness :
    set_lookup [(5, 7)] 5 = some 7 ∧
    set_lookup (set_remove [(5, 7)] 5) 5 = none ∧
    ∀ d2, set_insert [(5, 7)] 5 d2 = Except.error SetErr.Exists :=
  c7_set_contract [] [(5, 7)] 5 7 (by rfl)
